import Mathlib

/-!
Verification of the news-collection pipeline in `main.py`.

The pipeline reads news rows from input sheets, selects those inside a
rolling 24-hour window, deduplicates them by URL against the destination
sheet, normalizes titles into comparison keys, and classifies rows with an
external oracle.  We embed the pure computational core of `main.py`
shallowly:

* instants are rationals counting seconds since 1899-12-30T00:00:00 JST
  (wall clock in the fixed zone `Asia/Tokyo`); all datetimes handled by the
  program end up JST-aware, so instant comparison equals wall comparison;
* `dateutil.parser.parse` is an external library and is modelled as an
  oracle parameter `tp : String → Option ℚ` returning the JST instant;
* `float(...)` string parsing is modelled by `parseDecimal` (plain decimal
  numerals with optional sign and fraction);
* Unicode NFKC, the optional `jaconv.z2h` folding and the optional
  `regex`-module category classes are external; they are modelled on the
  character repertoire the program manipulates (full/half-width ASCII and
  katakana, CJK punctuation), with canonical composition of the combining
  voiced marks, as explicit tables below;
* worksheet I/O is out of scope: functions receive the cell matrix
  (`List (List String)`) that `get_all_values` would return.
-/

namespace NewsAI

/-- Concatenation map, used to embed Python loops that extend an output
list with zero or more elements per input element. -/
def cmap (f : α → List β) : List α → List β
  | [] => []
  | a :: t => f a ++ cmap f t

/-! ## Temporal window resolver (`calc_time_window`)

`main.py` works with timezone-aware `datetime` values in JST.  We represent
such a value by the rational number of seconds since 1899-12-30T00:00:00
JST.  `replace(hour=h, minute=m, second=s, microsecond=0)` keeps the
calendar day and sets the time of day, which on this representation is
"floor to the day, then add the chosen time of day". -/

/-- Calendar day index of a JST instant (days since the 1899-12-30 JST epoch),
i.e. the date part of the wall-clock datetime. -/
def dayOf (t : ℚ) : ℤ := ⌊t / 86400⌋

/-- Seconds-of-day for 14:59:59. -/
def endSec : ℤ := 14 * 3600 + 59 * 60 + 59

/-- Seconds-of-day for 15:00:00. -/
def startSec : ℤ := 15 * 3600

/-- `calc_time_window(now_jst)` from `main.py`:
`end = now.replace(hour=14, minute=59, second=59, microsecond=0)` and
`start = (end - timedelta(days=1)).replace(hour=15, minute=0, second=0, microsecond=0)`. -/
def calc_time_window (now : ℚ) : ℚ × ℚ :=
  let e : ℚ := (dayOf now : ℚ) * 86400 + (endSec : ℚ)
  let s : ℚ := (dayOf (e - 86400) : ℚ) * 86400 + (startSec : ℚ)
  (s, e)

/-! ## Date/time normalizer (`parse_sheet_datetime_to_jst`) -/

/-- Python `str.strip()` (on the whitespace the feeds contain): drop
leading and trailing whitespace characters. -/
def pyStrip (s : String) : String :=
  String.mk (((s.data.dropWhile fun c => c.isWhitespace).reverse.dropWhile
    (fun c => c.isWhitespace)).reverse)

/-- Value of a digit list read left to right. -/
def digitsVal (l : List Char) : ℕ :=
  l.foldl (fun a c => a * 10 + (c.toNat - 48)) 0

/-- Model of Python `float(val)` on decimal numerals: optional surrounding
whitespace, optional sign, digits with an optional single decimal point.
(Exponent forms and `inf`/`nan` are not modelled; on those this model falls
through to the textual branch.) -/
def parseDecimal (s : String) : Option ℚ :=
  let t := (pyStrip s).data
  let negRest : Bool × List Char :=
    match t with
    | '+' :: r => (false, r)
    | '-' :: r => (true, r)
    | _ => (false, t)
  let neg := negRest.1
  let t1 := negRest.2
  let ip := t1.takeWhile (fun c => c.isDigit)
  let rest := t1.dropWhile (fun c => c.isDigit)
  match rest with
  | [] =>
    if ip.isEmpty then none
    else some (if neg then -(digitsVal ip : ℚ) else (digitsVal ip : ℚ))
  | '.' :: fr =>
    if fr.all (fun c => c.isDigit) ∧ (ip ≠ [] ∨ fr ≠ []) then
      let v : ℚ := (digitsVal ip : ℚ) + (digitsVal fr : ℚ) / (10 : ℚ) ^ fr.length
      some (if neg then -v else v)
    else none
  | _ => none

/-- The numeric-serial branch of `parse_sheet_datetime_to_jst`:
`datetime(1899, 12, 30, tzinfo=timezone.utc) + timedelta(days=serial)`,
then `astimezone(JST)`.  The UTC epoch instant is 09:00 JST wall time,
i.e. 32400 seconds past our JST epoch. -/
def serialToJST (serial : ℚ) : ℚ := 32400 + serial * 86400

/-- `parse_sheet_datetime_to_jst(val)` from `main.py`.  Empty or
whitespace-only input yields `none`; otherwise the numeric-serial branch is
tried first; otherwise the dateutil text parse, modelled by the oracle
`tp` (which returns the instant already attached to / converted to JST, or
`none` when dateutil raises). -/
def parse_sheet_datetime_to_jst (tp : String → Option ℚ) (val : String) : Option ℚ :=
  if pyStrip val = "" then none
  else
    match parseDecimal val with
    | some serial => some (serialToJST serial)
    | none => tp val

/-! ## Civil calendar (for `format_compact_jst` and year computations)

Standard days-to-civil-date conversion on the proleptic Gregorian
calendar; `z` counts days since 1970-01-01. -/

/-- Convert a day count since 1970-01-01 into `(year, month, day)`. -/
def civilFromDays (z : ℤ) : ℤ × ℤ × ℤ :=
  let z' := z + 719468
  let era := z'.fdiv 146097
  let doe := z' - era * 146097
  let yoe := (doe - doe / 1460 + doe / 36524 - doe / 146096) / 365
  let y := yoe + era * 400
  let doy := doe - (365 * yoe + yoe / 4 - yoe / 100)
  let mp := (5 * doy + 2) / 153
  let d := doy - (153 * mp + 2) / 5 + 1
  let m := mp + (if mp < 10 then 3 else -9)
  (y + (if m ≤ 2 then 1 else 0), m, d)

/-- Days between 1899-12-30 and 1970-01-01. -/
def epochShift : ℤ := 25569

/-- Calendar year (in JST) of an instant. -/
def yearOfJST (t : ℚ) : ℤ := (civilFromDays (dayOf t - epochShift)).1

/-- Zero-padded two-digit rendering of `0 ≤ n < 100`. -/
def pad2 (n : ℤ) : String :=
  if n < 10 then "0" ++ toString n else toString n

/-- `format_compact_jst(dt)` from `main.py`: `f"{dt:%y}/{dt.month}/{dt.day} {dt:%H:%M}"`,
two-digit year, month/day without padding, zero-padded 24-hour time. -/
def format_compact_jst (t : ℚ) : String :=
  let day := dayOf t
  let tod := ⌊t⌋ - day * 86400
  let ymd := civilFromDays (day - epochShift)
  pad2 (ymd.1 % 100) ++ "/" ++ toString ymd.2.1 ++ "/" ++ toString ymd.2.2 ++ " " ++
    pad2 (tod / 3600) ++ ":" ++ pad2 (tod % 3600 / 60)

/-! ## Title normalizer (`normalize_title_for_dup`, `to_hankaku_kana_ascii_digit`)

`main.py` composes three external text transforms:
`unicodedata.normalize("NFKC", s)`, optionally `jaconv.z2h(s, kana=True,
digit=True, ascii=True)` (when `jaconv` imported), and a strip step that is
either the `regex` module's `[\p{P}\p{S}\p{Z}\p{Cc}]+` class (when `regex`
imported) or a hand-written fallback pattern.  We model them on the
character repertoire the pipeline manipulates: NFKC as a per-character
table (full-width ASCII and half-width katakana being the mapped blocks)
followed by canonical composition of the combining (semi)voiced sound
marks U+3099/U+309A; `z2h` as the per-character jaconv conversion table;
the strip classes by explicit code-point ranges.  Characters outside the
tables are unchanged, which matches NFKC/z2h on the letters, kanji and
kana the feeds contain. -/

/-- Combining katakana-hiragana voiced sound mark U+3099. -/
def vMark : Char := Char.ofNat 0x3099

/-- Combining katakana-hiragana semi-voiced sound mark U+309A. -/
def svMark : Char := Char.ofNat 0x309A

/-- NFKC images of the half-width kana block U+FF61–U+FF9F, indexed by
code point minus 0xFF61.  Checked against `unicodedata.normalize`. -/
def hwKanaTargets : List (List Char) :=
  [['\u3002'], ['\u300C'], ['\u300D'], ['\u3001'], ['\u30FB'],
   ['\u30F2'], ['\u30A1'], ['\u30A3'], ['\u30A5'], ['\u30A7'], ['\u30A9'],
   ['\u30E3'], ['\u30E5'], ['\u30E7'], ['\u30C3'], ['\u30FC'],
   ['\u30A2'], ['\u30A4'], ['\u30A6'], ['\u30A8'], ['\u30AA'],
   ['\u30AB'], ['\u30AD'], ['\u30AF'], ['\u30B1'], ['\u30B3'],
   ['\u30B5'], ['\u30B7'], ['\u30B9'], ['\u30BB'], ['\u30BD'],
   ['\u30BF'], ['\u30C1'], ['\u30C4'], ['\u30C6'], ['\u30C8'],
   ['\u30CA'], ['\u30CB'], ['\u30CC'], ['\u30CD'], ['\u30CE'],
   ['\u30CF'], ['\u30D2'], ['\u30D5'], ['\u30D8'], ['\u30DB'],
   ['\u30DE'], ['\u30DF'], ['\u30E0'], ['\u30E1'], ['\u30E2'],
   ['\u30E4'], ['\u30E6'], ['\u30E8'],
   ['\u30E9'], ['\u30EA'], ['\u30EB'], ['\u30EC'], ['\u30ED'],
   ['\u30EF'], ['\u30F3'],
   ['\u3099'], ['\u309A']]

/-- Per-character NFKC on the modelled repertoire: full-width ASCII
U+FF01–U+FF5E shifts down by 0xFEE0, half-width kana U+FF61–U+FF9F maps to
the full-width block, the ideographic space becomes a space, and the
(semi)voiced marks U+309B/U+309C decompose to space + combining mark;
identity elsewhere. -/
def nfkcChar (c : Char) : List Char :=
  let n := c.toNat
  if 0xFF01 ≤ n ∧ n ≤ 0xFF5E then [Char.ofNat (n - 0xFEE0)]
  else if 0xFF61 ≤ n ∧ n ≤ 0xFF9F then hwKanaTargets.getD (n - 0xFF61) [c]
  else if n = 0x3000 then [' ']
  else if n = 0x309B then [' ', vMark]
  else if n = 0x309C then [' ', svMark]
  else [c]

/-- Canonical composition of a base katakana with a combining voiced or
semi-voiced mark (the pairs NFKC composes and `jaconv.z2h` folds apart),
`none` when the pair does not compose. -/
def compPair (a b : Char) : Option Char :=
  let m := a.toNat
  if b = vMark then
    if [0x30AB, 0x30AD, 0x30AF, 0x30B1, 0x30B3, 0x30B5, 0x30B7, 0x30B9,
        0x30BB, 0x30BD, 0x30BF, 0x30C1, 0x30C4, 0x30C6, 0x30C8,
        0x30CF, 0x30D2, 0x30D5, 0x30D8, 0x30DB].contains m then
      some (Char.ofNat (m + 1))
    else if m = 0x30A6 then some '\u30F4'
    else none
  else if b = svMark then
    if [0x30CF, 0x30D2, 0x30D5, 0x30D8, 0x30DB].contains m then
      some (Char.ofNat (m + 2))
    else none
  else none

/-- Fuelled left-to-right canonical composition scan; the fuel only makes
the recursion structural and is always at least the list length. -/
def composeGo : ℕ → List Char → List Char
  | _, [] => []
  | _, [a] => [a]
  | 0, a :: b :: r => a :: b :: r
  | Nat.succ f, a :: b :: r =>
    match compPair a b with
    | some c => composeGo f (c :: r)
    | none => a :: composeGo f (b :: r)

/-- Left-to-right canonical composition pass (the recombination step of
NFKC after compatibility decomposition). -/
def compose (l : List Char) : List Char := composeGo l.length l

/-- String-level NFKC on the modelled repertoire. -/
def nfkcStr (l : List Char) : List Char := compose (cmap nfkcChar l)

/-- `jaconv.z2h(kana=True)` images of the katakana block U+30A1–U+30FC,
indexed by code point minus 0x30A1; `none` marks letters jaconv leaves
unchanged.  Voiced letters split into base + half-width mark. -/
def kataZ2h : List (Option (List Char)) :=
  [some ['\uFF67'], some ['\uFF71'], some ['\uFF68'], some ['\uFF72'],
   some ['\uFF69'], some ['\uFF73'], some ['\uFF6A'], some ['\uFF74'],
   some ['\uFF6B'], some ['\uFF75'],
   some ['\uFF76'], some ['\uFF76', '\uFF9E'], some ['\uFF77'], some ['\uFF77', '\uFF9E'],
   some ['\uFF78'], some ['\uFF78', '\uFF9E'], some ['\uFF79'], some ['\uFF79', '\uFF9E'],
   some ['\uFF7A'], some ['\uFF7A', '\uFF9E'],
   some ['\uFF7B'], some ['\uFF7B', '\uFF9E'], some ['\uFF7C'], some ['\uFF7C', '\uFF9E'],
   some ['\uFF7D'], some ['\uFF7D', '\uFF9E'], some ['\uFF7E'], some ['\uFF7E', '\uFF9E'],
   some ['\uFF7F'], some ['\uFF7F', '\uFF9E'],
   some ['\uFF80'], some ['\uFF80', '\uFF9E'], some ['\uFF81'], some ['\uFF81', '\uFF9E'],
   some ['\uFF6F'], some ['\uFF82'], some ['\uFF82', '\uFF9E'],
   some ['\uFF83'], some ['\uFF83', '\uFF9E'], some ['\uFF84'], some ['\uFF84', '\uFF9E'],
   some ['\uFF85'], some ['\uFF86'], some ['\uFF87'], some ['\uFF88'], some ['\uFF89'],
   some ['\uFF8A'], some ['\uFF8A', '\uFF9E'], some ['\uFF8A', '\uFF9F'],
   some ['\uFF8B'], some ['\uFF8B', '\uFF9E'], some ['\uFF8B', '\uFF9F'],
   some ['\uFF8C'], some ['\uFF8C', '\uFF9E'], some ['\uFF8C', '\uFF9F'],
   some ['\uFF8D'], some ['\uFF8D', '\uFF9E'], some ['\uFF8D', '\uFF9F'],
   some ['\uFF8E'], some ['\uFF8E', '\uFF9E'], some ['\uFF8E', '\uFF9F'],
   some ['\uFF8F'], some ['\uFF90'], some ['\uFF91'], some ['\uFF92'], some ['\uFF93'],
   some ['\uFF6C'], some ['\uFF94'], some ['\uFF6D'], some ['\uFF95'],
   some ['\uFF6E'], some ['\uFF96'],
   some ['\uFF97'], some ['\uFF98'], some ['\uFF99'], some ['\uFF9A'], some ['\uFF9B'],
   none, some ['\uFF9C'], none, none, some ['\uFF66'], some ['\uFF9D'],
   some ['\uFF73', '\uFF9E'], none, none, none, none, none, none,
   some ['\uFF65'], some ['\uFF70']]

/-- Per-character action of `jaconv.z2h(kana=True, digit=True,
ascii=True)` on the modelled repertoire: the katakana block plus the kana
punctuation and the full-width (semi)voiced marks; identity elsewhere
(full-width ASCII and digits never reach it since NFKC runs first). -/
def z2hChar (c : Char) : List Char :=
  let n := c.toNat
  if 0x30A1 ≤ n ∧ n ≤ 0x30FC then (kataZ2h.getD (n - 0x30A1) none).getD [c]
  else if n = 0x3001 then ['\uFF64']
  else if n = 0x3002 then ['\uFF61']
  else if n = 0x300C then ['\uFF62']
  else if n = 0x300D then ['\uFF63']
  else if n = 0x309B then ['\uFF9E']
  else if n = 0x309C then ['\uFF9F']
  else [c]

/-- `to_hankaku_kana_ascii_digit(s)` from `main.py`: NFKC always, then the
jaconv fold when the library is importable (`jac` flag). -/
def to_hankaku_kana_ascii_digit (jac : Bool) (l : List Char) : List Char :=
  let n := nfkcStr l
  if jac then cmap z2hChar n else n

/-- Model of the `regex` module class `[\p{P}\p{S}\p{Z}\p{Cc}]` (general
categories Punctuation, Symbol, Separator, Control) on the modelled
repertoire, by code-point range.  Note U+3099/U+309A are Mn and
U+FF9E/U+FF9F and U+30FC/U+FF70 are Lm: none of them is stripped. -/
def stripRich (c : Char) : Bool :=
  let n := c.toNat
  if n ≤ 0x7F then !c.isAlphanum
  else if n ≤ 0xA0 then true
  else if 0x2000 ≤ n && n ≤ 0x200A then true
  else if 0x2010 ≤ n && n ≤ 0x2029 then true
  else if n = 0x202F then true
  else if 0x2030 ≤ n && n ≤ 0x205F then true
  else if 0x3000 ≤ n && n ≤ 0x3004 then true
  else if 0x3008 ≤ n && n ≤ 0x3013 then true
  else if 0x3014 ≤ n && n ≤ 0x301F then true
  else if n = 0x3030 then true
  else if 0x303D ≤ n && n ≤ 0x303F then true
  else if n = 0x309B || n = 0x309C then true
  else if n = 0x30A0 || n = 0x30FB then true
  else if 0xFF01 ≤ n && n ≤ 0xFF0F then true
  else if 0xFF1A ≤ n && n ≤ 0xFF20 then true
  else if 0xFF3B ≤ n && n ≤ 0xFF40 then true
  else if 0xFF5B ≤ n && n ≤ 0xFF65 then true
  else false

/-- Python `\s` on `str` patterns: the White_Space code points. -/
def pyWs (c : Char) : Bool :=
  let n := c.toNat
  (9 ≤ n && n ≤ 13) || (0x1C ≤ n && n ≤ 0x1F) || n = 0x20 || n = 0x85 ||
  n = 0xA0 || n = 0x1680 || (0x2000 ≤ n && n ≤ 0x200A) || n = 0x2028 ||
  n = 0x2029 || n = 0x202F || n = 0x205F || n = 0x3000

/-- The fallback strip pattern of `normalize_title_for_dup` (used when the
`regex` module is unavailable): whitespace, quotes, brackets, listed
punctuation, full-width brackets, and the dash/long-vowel set. -/
def stripFallback (c : Char) : Bool :=
  pyWs c ||
  ['"', '\'', '“', '”', '‘', '’', '(', ')', '[', ']',
   Char.ofNat 0x7B, Char.ofNat 0x7D, '<', '>'].contains c ||
  ['、', '。', '・', ',', '…', ':', ';', '!', '?', '！', '？', '／', '/',
   '\\', '|', '＋', '+', '＊', '*', '.'].contains c ||
  ['【', '】', '＜', '＞', '「', '」', '『', '』', '《', '》', '〔', '〕',
   '［', '］', '｛', '｝', '（', '）'].contains c ||
  ['-', '−', '‐', '‑', '‒', '–', '—', '―', '－', 'ー', 'ｰ'].contains c

/-- The strip predicate actually used, by availability of the `regex`
module (`rich` flag). -/
def stripFor (rich : Bool) (c : Char) : Bool :=
  if rich then stripRich c else stripFallback c

/-- `normalize_title_for_dup` on character lists: half-width folding, then
symbol/bracket/space removal. -/
def normalizeL (rich jac : Bool) (l : List Char) : List Char :=
  (to_hankaku_kana_ascii_digit jac l).filter (fun c => !(stripFor rich c))

/-- `normalize_title_for_dup(s)` from `main.py`, parametrised by which of
the optional libraries (`regex` → `rich`, `jaconv` → `jac`) imported. -/
def normalize_title_for_dup (rich jac : Bool) (s : String) : String :=
  String.mk (normalizeL rich jac s.data)

/-- Stand-alone (semi)voiced sound-mark characters: the inputs on which a
second normalization pass can differ from the first. -/
def isMark (c : Char) : Bool :=
  c == vMark || c == svMark || c == '゛' || c == '゜' || c == 'ﾞ' || c == 'ﾟ'

/-- The two combining marks that `compPair` can consume. -/
def isCombining (c : Char) : Bool := c == vMark || c == svMark

/-- Per-character normalization (no composition step; on mark-free input
the string-level function is the concatenation of these). -/
def normChar (rich jac : Bool) (c : Char) : List Char :=
  (if jac then cmap z2hChar (nfkcChar c) else nfkcChar c).filter
    (fun d => !(stripFor rich d))

/-- First element is not a stand-alone mark (vacuous for `[]`). -/
def headNotMark : List Char → Bool
  | [] => true
  | d :: _ => !isMark d

/-- Conditions on one character making two normalization passes agree:
its NFKC image is nonempty and combining-free, its normalized image is a
fixed point of the full normalization, and that image does not start with
a mark. -/
def chunkOK (rich jac : Bool) (c : Char) : Bool :=
  !(nfkcChar c).isEmpty &&
  (nfkcChar c).all (fun d => !isCombining d) &&
  normalizeL rich jac (normChar rich jac c) == normChar rich jac c &&
  headNotMark (normChar rich jac c)

/-- The characters of a contiguous code-point block. -/
def charRange (base len : ℕ) : List Char :=
  (List.range len).map (fun i => Char.ofNat (base + i))

/-- Characters the NFKC/z2h maps act on. -/
def domainChars : List Char :=
  charRange 0xFF01 94 ++ charRange 0xFF61 63 ++ charRange 0x30A1 92 ++
  ['\u3000', '\u309B', '\u309C', '\u3001', '\u3002', '\u300C', '\u300D']

/-- Code-point test matching `domainChars`. -/
def inDomainN (n : ℕ) : Bool :=
  (0xFF01 ≤ n && n ≤ 0xFF5E) || (0xFF61 ≤ n && n ≤ 0xFF9F) ||
  (0x30A1 ≤ n && n ≤ 0x30FC) ||
  [0x3000, 0x309B, 0x309C, 0x3001, 0x3002, 0x300C, 0x300D].contains n

/-- Table-wide check of `chunkOK` for one library configuration. -/
def checkMode (rich jac : Bool) : Bool :=
  domainChars.all (fun c => isMark c || chunkOK rich jac c)

/-! ## Row selector and dedup reconciler -/

/-- One destination row (columns A–I of the output sheet): source, title,
URL, formatted timestamp, attribution, sentiment (F), category (G),
normalized comparison title (H), paid category (I). -/
structure OutRow where
  source : String
  title : String
  url : String
  posted : String
  attribution : String
  sentiment : String
  category : String
  dupKey : String
  paid : String
deriving DecidableEq, Repr

/-- The per-row body of the scan loop in `collect_rows_from_input`: field
extraction by position with trimming, the empty-field skips, the timestamp
parse, the inclusive window test, and construction of the output row. -/
def row_to_out (rich jac : Bool) (tp : String → Option ℚ) (startT endT : ℚ)
    (sheetName : String) (row : List String) : Option OutRow :=
  let title := pyStrip (row.getD 0 "")
  let url := pyStrip (row.getD 1 "")
  let postedRaw := pyStrip (row.getD 2 "")
  let sourceName := pyStrip (row.getD 3 "")
  if title = "" ∨ url = "" ∨ postedRaw = "" then none
  else
    match parse_sheet_datetime_to_jst tp postedRaw with
    | none => none
    | some t =>
      if startT ≤ t ∧ t ≤ endT then
        some { source := sheetName, title := title, url := url,
               posted := format_compact_jst t, attribution := sourceName,
               sentiment := "", category := "",
               dupKey := normalize_title_for_dup rich jac title, paid := "" }
      else none

/-- `collect_rows_from_input` over the input sheets (name, cell matrix) in
feed priority order; row 0 of each sheet is the header. -/
def collect_rows_from_input (rich jac : Bool) (tp : String → Option ℚ)
    (startT endT : ℚ) (sheets : List (String × List (List String))) : List OutRow :=
  cmap (fun sh => (sh.2.drop 1).filterMap (row_to_out rich jac tp startT endT sh.1)) sheets

/-- `read_existing_urls(ws_out)`: column C of every data row, trimmed,
non-empty ones collected (as a list; only membership is ever used, matching
the Python `set`). -/
def read_existing_urls (values : List (List String)) : List String :=
  (values.drop 1).filterMap (fun row =>
    if 3 ≤ row.length then
      let u := pyStrip (row.getD 2 "")
      if u = "" then none else some u
    else none)

/-- The filter of `append_rows_dedup`: keep candidates whose URL is not in
the existing-URL set; these rows are appended in order. -/
def append_rows_dedup (rows : List OutRow) (existing : List String) : List OutRow :=
  rows.filter (fun r => decide (r.url ∉ existing))

/-- URL column of the destination table after the append step. -/
def urls_after (existing : List String) (rows : List OutRow) : List String :=
  existing ++ (append_rows_dedup rows existing).map (fun r => r.url)

/-! ## Classification merge (`classify_with_gemini`) -/

/-- One parsed object of the oracle's JSON response.  `row` is the result
of `int(obj.get("row"))`, `none` when that conversion raises (the object is
then skipped). -/
structure RespObj where
  row : Option ℤ
  sentiment : String
  category : String

/-- Substring test on character lists (`sub` occurs inside `hay`). -/
def prefixAux : List Char → List Char → Bool
  | [], _ => true
  | _ :: _, [] => false
  | a :: s, b :: h => a == b && prefixAux s h

/-- Recursive scan for `prefixAux` at every suffix. -/
def subAux (sub : List Char) : List Char → Bool
  | [] => prefixAux sub []
  | c :: h => prefixAux sub (c :: h) || subAux sub h

/-- Python `sub in hay` on strings. -/
def strContains (hay sub : String) : Bool := subAux sub.data hay.data

/-- The sentiment vocabulary repair of `classify_with_gemini`: exact labels
pass through, otherwise substring matching on ポジ/ネガ, otherwise the
neutral label. -/
def fix_sentiment (s : String) : String :=
  if s = "ポジティブ" ∨ s = "ネガティブ" ∨ s = "ニュートラル" then s
  else if strContains s "ポジ" then "ポジティブ"
  else if strContains s "ネガ" then "ネガティブ"
  else "ニュートラル"

/-- The eligible-row scan of `classify_with_gemini` (`i` is the enumerate
index; row 0 is the header; `row_idx = i + 1`; a row is eligible when the
title is present and F or G is empty). -/
def eligibleAux : ℕ → List (List String) → List (ℕ × String)
  | _, [] => []
  | i, row :: rest =>
    (if i = 0 then []
     else
       let title := row.getD 1 ""
       let f := row.getD 5 ""
       let g := row.getD 6 ""
       if title ≠ "" ∧ (f = "" ∨ g = "") then [(i + 1, title)] else []) ++
    eligibleAux (i + 1) rest

/-- The `(row_idx, title)` pairs submitted for classification. -/
def eligible_items (values : List (List String)) : List (ℕ × String) :=
  eligibleAux 0 values

/-- Fuelled batch slicing; the fuel only makes the recursion structural
and is always at least the list length. -/
def chunks40Go : ℕ → List α → List (List α)
  | _, [] => []
  | 0, a :: t => [a :: t]
  | Nat.succ f, a :: t => ((a :: t).take 40) :: chunks40Go f ((a :: t).drop 40)

/-- `range(0, len(items), BATCH)` slicing with `BATCH = 40`. -/
def chunks40 (l : List α) : List (List α) := chunks40Go l.length l

/-- The update-staging loop of `classify_with_gemini`: for each batch, the
oracle returns the parsed JSON array (or `none` when the call or the parse
raises, dropping the batch); each object stages an `F{row}:G{row}` write
with the repaired sentiment and the trimmed category.  When no row is
eligible the function returns before calling the oracle. -/
def classify_updates (values : List (List String))
    (oracle : List (ℕ × String) → Option (List RespObj)) : List (ℤ × String × String) :=
  let items := eligible_items values
  if items = [] then []
  else
    cmap (fun batch =>
      match oracle batch with
      | none => []
      | some objs => objs.filterMap (fun o =>
          match o.row with
          | none => none
          | some ridx => some (ridx, fix_sentiment (pyStrip o.sentiment), pyStrip o.category)))
      (chunks40 items)

/-! ## Concrete fixtures used by witnesses and counterexamples -/

/-- A text-parse oracle used to exercise the window boundaries. -/
def boundTp : String → Option ℚ := fun s =>
  if s = "atStart" then some 0
  else if s = "atEnd" then some 86399
  else if s = "afterEnd" then some 86400
  else if s = "beforeStart" then some (-1)
  else none

/-- An input row carrying the given raw timestamp text. -/
def bRow (stamp : String) : List String := ["t", "u", stamp, "s"]

/-- A candidate row with the given URL. -/
def mkRow (u : String) : OutRow :=
  { source := "MSN", title := "t", url := u, posted := "d", attribution := "s",
    sentiment := "", category := "", dupKey := "k", paid := "" }

/-- A destination cell matrix: header, an unlabeled row 2, a fully
labeled row 3. -/
def cexVals : List (List String) :=
  [["h"], ["", "T2", "u2", "d", "s", "", ""], ["", "T3", "u3", "d", "s", "ポジティブ", "会社"]]

/-- An oracle response that names row 3 (which is fully labeled) even
though only row 2 was submitted. -/
def cexOracle : List (ℕ × String) → Option (List RespObj) :=
  fun _ => some [{ row := some 3, sentiment := "ポジティブ", category := "株式" }]

/-- A contract-compliant oracle: echoes exactly the submitted row ids. -/
def echoOracle : List (ℕ × String) → Option (List RespObj) :=
  fun batch => some (batch.map (fun p =>
    { row := some (p.1 : ℤ), sentiment := "ぽじ", category := "会社" }))

/-! ## General lemmas -/

theorem cmap_append (f : α → List β) (l l' : List α) :
    cmap f (l ++ l') = cmap f l ++ cmap f l' := by
  induction l with
  | nil => rfl
  | cons a t ih => simp [cmap, ih]

theorem mem_cmap {f : α → List β} {b : β} {l : List α} :
    b ∈ cmap f l ↔ ∃ a ∈ l, b ∈ f a := by
  induction l with
  | nil => simp [cmap]
  | cons a t ih => simp [cmap, ih]

theorem cmap_cmap (g : β → List γ) (f : α → List β) (l : List α) :
    cmap g (cmap f l) = cmap (fun a => cmap g (f a)) l := by
  induction l with
  | nil => rfl
  | cons a t ih => simp [cmap, cmap_append, ih]

theorem filter_cmap (p : β → Bool) (f : α → List β) (l : List α) :
    (cmap f l).filter p = cmap (fun a => (f a).filter p) l := by
  induction l with
  | nil => rfl
  | cons a t ih => simp [cmap, List.filter_append, ih]

/-- Floor of a day-multiple plus a sub-day remainder. -/
theorem dayOf_mul_add (k : ℤ) (r : ℚ) (h0 : 0 ≤ r) (h1 : r < 86400) :
    dayOf ((k : ℚ) * 86400 + r) = k := by
  unfold dayOf
  rw [show ((k : ℚ) * 86400 + r) / 86400 = (k : ℚ) + r / 86400 by field_simp]
  rw [Int.floor_int_add]
  have hz : ⌊r / 86400⌋ = 0 := by
    rw [Int.floor_eq_zero_iff]
    constructor
    · positivity
    · rw [div_lt_one (by norm_num)]; exact h1
  rw [hz, add_zero]

/-! ## C2: the acquisition window -/

/-- C2 counterexample: at `now = 0` the window is
(prior day 15:00:00, same day 14:59:59), whose difference is 86399
seconds — the claimed duration of exactly 24 hours (86400 s) is wrong. -/
theorem C2_window_cex :
    ¬((calc_time_window 0).2 - (calc_time_window 0).1 = 86400) := by
  have h1 : dayOf (0 : ℚ) = 0 := by norm_num [dayOf]
  have h3 : dayOf (-32401 : ℚ) = -1 := by
    norm_num [dayOf, Int.floor_eq_iff]
  have he : (calc_time_window 0).2 = 53999 := by
    simp only [calc_time_window, h1, endSec]
    norm_num
  have hs : (calc_time_window 0).1 = -32400 := by
    simp only [calc_time_window, h1, endSec, startSec]
    rw [show ((0 : ℤ) : ℚ) * 86400 + ((14 * 3600 + 59 * 60 + 59 : ℤ) : ℚ) - 86400
        = (-32401 : ℚ) by push_cast; norm_num]
    rw [h3]
    norm_num
  rw [he, hs]
  norm_num

/-- C2 amended: for every `now`, the window end is `now`'s calendar day at
14:59:59 and the start is the prior calendar day at 15:00:00 (regardless
of `now`'s time of day), `start ≤ end` holds, and the duration is 86399
seconds (24 hours minus one second), not exactly 24 hours. -/
theorem C2_window_amended (now : ℚ) :
    (calc_time_window now).2 = (dayOf now : ℚ) * 86400 + (endSec : ℚ) ∧
    (calc_time_window now).1 = ((dayOf now - 1 : ℤ) : ℚ) * 86400 + (startSec : ℚ) ∧
    (calc_time_window now).1 ≤ (calc_time_window now).2 ∧
    (calc_time_window now).2 - (calc_time_window now).1 = 86399 := by
  have he : (calc_time_window now).2 = (dayOf now : ℚ) * 86400 + (endSec : ℚ) := rfl
  have harg : (dayOf now : ℚ) * 86400 + (endSec : ℚ) - 86400
      = ((dayOf now - 1 : ℤ) : ℚ) * 86400 + 53999 := by
    push_cast [endSec]
    ring
  have hs : (calc_time_window now).1 = ((dayOf now - 1 : ℤ) : ℚ) * 86400 + (startSec : ℚ) := by
    show (dayOf ((dayOf now : ℚ) * 86400 + (endSec : ℚ) - 86400) : ℚ) * 86400 + (startSec : ℚ) = _
    rw [harg, dayOf_mul_add _ 53999 (by norm_num) (by norm_num)]
  refine ⟨he, hs, ?_, ?_⟩
  · rw [he, hs]
    push_cast [endSec, startSec]
    linarith
  · rw [he, hs]
    push_cast [endSec, startSec]
    ring

/-! ## C8/C10: the date/time normalizer -/

/-- Blank input fails the numeric parse as well. -/
theorem parseDecimal_blank {val : String} (h : pyStrip val = "") :
    parseDecimal val = none := by
  unfold parseDecimal
  rw [h]
  rfl

/-- When the numeric parse succeeds, the result is the serial converted
from the 1899-12-30 UTC epoch (the textual oracle is never consulted). -/
theorem parse_of_decimal (tp : String → Option ℚ) {val : String} {q : ℚ}
    (hq : parseDecimal val = some q) :
    parse_sheet_datetime_to_jst tp val = some (serialToJST q) := by
  have hb : ¬(pyStrip val = "") := by
    intro h
    rw [parseDecimal_blank h] at hq
    exact Option.noConfusion hq
  unfold parse_sheet_datetime_to_jst
  rw [if_neg hb, hq]

/-- The parse yields `none` exactly when the input is blank or both the
numeric and the textual parse fail. -/
theorem parse_none_iff (tp : String → Option ℚ) (val : String) :
    parse_sheet_datetime_to_jst tp val = none ↔
      (pyStrip val = "" ∨ (parseDecimal val = none ∧ tp val = none)) := by
  unfold parse_sheet_datetime_to_jst
  by_cases hb : pyStrip val = ""
  · simp [hb]
  · rw [if_neg hb]
    cases hpd : parseDecimal val with
    | some q => simp [hb]
    | none => simp [hb]

/-- C8: a numeric input maps to the 1899-12-30T00:00:00 UTC epoch plus
serial × 1 day, rendered in JST; the result is `none` exactly when the
input is blank or neither parse succeeds; the function is total (failure
is the `none` value, never an exception). -/
theorem C8_parse_datetime (tp : String → Option ℚ) (val : String) :
    (∀ q, parseDecimal val = some q →
      parse_sheet_datetime_to_jst tp val = some (serialToJST q)) ∧
    (parse_sheet_datetime_to_jst tp val = none ↔
      (pyStrip val = "" ∨ (parseDecimal val = none ∧ tp val = none))) :=
  ⟨fun _ hq => parse_of_decimal tp hq, parse_none_iff tp val⟩

/-- Witness for C8 at the concrete input "2024". -/
theorem C8_parse_witness :
    parseDecimal "2024" = some 2024 ∧
    parse_sheet_datetime_to_jst (fun _ => none) "2024" = some (serialToJST 2024) :=
  ⟨rfl, (C8_parse_datetime (fun _ => none) "2024").1 2024 rfl⟩

/-- C10: the numeric branch runs before the textual parse, for every
textual oracle; in particular "2024" is read as a day-count serial
(1899-12-30 epoch plus 2024 days), an instant in the year 1905, never as
the calendar year 2024. -/
theorem C10_serial_priority (tp : String → Option ℚ) :
    (∀ s q, parseDecimal s = some q →
      parse_sheet_datetime_to_jst tp s = some (serialToJST q)) ∧
    parse_sheet_datetime_to_jst tp "2024" = some (serialToJST 2024) ∧
    yearOfJST (serialToJST 2024) = 1905 := by
  refine ⟨fun s q hq => parse_of_decimal tp hq, parse_of_decimal tp rfl, ?_⟩
  have hday : dayOf (serialToJST 2024) = 2024 := by
    norm_num [dayOf, serialToJST, Int.floor_eq_iff]
  unfold yearOfJST
  rw [hday]
  decide

/-- Witness for C10: even an oracle that would return a year-2024 instant
for the text "2024" is ignored. -/
theorem C10_serial_witness :
    parseDecimal "2024" = some 2024 ∧
    parse_sheet_datetime_to_jst boundTp "2024" = some (serialToJST 2024) :=
  ⟨rfl, (C10_serial_priority boundTp).1 "2024" 2024 rfl⟩

/-! ## C3: inclusive window selection -/

/-- C3: a row whose required fields are present and whose timestamp
parses to `t` is kept if and only if `startT ≤ t ≤ endT` (inclusive on
both bounds); concretely, with window [0, 86399], rows stamped exactly at
the start and exactly at the end are kept, and rows one second past the
end or one second before the start are dropped. -/
theorem C3_window_inclusion :
    (∀ (rich jac : Bool) (tp : String → Option ℚ) (startT endT : ℚ) (sheet : String)
      (row : List String) (t : ℚ),
      pyStrip (row.getD 0 "") ≠ "" → pyStrip (row.getD 1 "") ≠ "" →
      pyStrip (row.getD 2 "") ≠ "" →
      parse_sheet_datetime_to_jst tp (pyStrip (row.getD 2 "")) = some t →
      ((row_to_out rich jac tp startT endT sheet row).isSome ↔ (startT ≤ t ∧ t ≤ endT))) ∧
    (row_to_out true true boundTp 0 86399 "MSN" (bRow "atStart")).isSome = true ∧
    (row_to_out true true boundTp 0 86399 "MSN" (bRow "atEnd")).isSome = true ∧
    row_to_out true true boundTp 0 86399 "MSN" (bRow "afterEnd") = none ∧
    row_to_out true true boundTp 0 86399 "MSN" (bRow "beforeStart") = none := by
  refine ⟨?_, by decide, by decide, by decide, by decide⟩
  intro rich jac tp startT endT sheet row t h1 h2 h3 hp
  simp only [row_to_out]
  rw [if_neg (by intro hor; rcases hor with h | h | h; exacts [h1 h, h2 h, h3 h]), hp]
  by_cases hw : startT ≤ t ∧ t ≤ endT
  · simp [hw]
  · simp [hw]

/-- Witness for C3 at a concrete boundary row. -/
theorem C3_window_witness :
    (row_to_out true true boundTp 0 86399 "MSN" (bRow "atStart")).isSome ↔
      ((0 : ℚ) ≤ 0 ∧ (0 : ℚ) ≤ 86399) :=
  C3_window_inclusion.1 true true boundTp 0 86399 "MSN" (bRow "atStart") 0
    (by decide) (by decide) (by decide) (by decide)

/-! ## C4: idempotence of title normalization

The second pass differs from the first only through the canonical
composition step: if the strip step deletes a separator standing between a
kana and a combining voiced mark, the next pass's NFKC composes the two.
On inputs free of stand-alone (semi)voiced-mark characters the passes
agree, and we prove it by showing that the first pass emits a
concatenation of per-character chunks that the second pass maps to
themselves. -/

/-- `composeGo` ignores the fuel as long as it is at least `length - 1`. -/
theorem composeGo_fuel : ∀ (f g : ℕ) (l : List Char),
    l.length ≤ f + 1 → l.length ≤ g + 1 → composeGo f l = composeGo g l := by
  intro f
  induction f with
  | zero =>
    intro g l hf _
    match l, hf with
    | [], _ => cases g <;> rfl
    | [a], _ => cases g <;> rfl
  | succ f ih =>
    intro g l hf hg
    match l with
    | [] => cases g <;> rfl
    | [a] => cases g <;> rfl
    | a :: b :: r =>
      match g with
      | 0 => simp at hg
      | Nat.succ g =>
        show (match compPair a b with
          | some c => composeGo f (c :: r)
          | none => a :: composeGo f (b :: r)) = _
        cases hcp : compPair a b with
        | some c =>
          simp only [composeGo, hcp]
          exact ih g (c :: r) (by simp at hf ⊢; omega) (by simp at hg ⊢; omega)
        | none =>
          simp only [composeGo, hcp]
          rw [ih g (b :: r) (by simp at hf ⊢; omega) (by simp at hg ⊢; omega)]

theorem compose_cons_some {a b c : Char} (r : List Char) (h : compPair a b = some c) :
    compose (a :: b :: r) = compose (c :: r) := by
  unfold compose
  show composeGo (r.length + 1 + 1) (a :: b :: r) = _
  simp only [composeGo, h]
  exact composeGo_fuel _ _ (c :: r) (by simp) (by simp)

theorem compose_cons_none {a b : Char} (r : List Char) (h : compPair a b = none) :
    compose (a :: b :: r) = a :: compose (b :: r) := by
  unfold compose
  show composeGo (r.length + 1 + 1) (a :: b :: r) = _
  simp only [composeGo, h]
  rw [composeGo_fuel (r.length + 1) (b :: r).length (b :: r) (by simp) (by simp)]

/-- A pair whose second character is not a combining mark never composes. -/
theorem compPair_none {a b : Char} (hb : isCombining b = false) :
    compPair a b = none := by
  unfold isCombining at hb
  rw [Bool.or_eq_false_iff] at hb
  have h1 : ¬(b = vMark) := by
    intro h
    rw [h] at hb
    simp at hb
  have h2 : ¬(b = svMark) := by
    intro h
    rw [h] at hb
    simp at hb
  unfold compPair
  rw [if_neg h1, if_neg h2]

/-- Composition is the identity on combining-free lists. -/
theorem compose_triv : ∀ {l : List Char}, (∀ d ∈ l, isCombining d = false) →
    compose l = l := by
  intro l
  induction l with
  | nil => intro _; rfl
  | cons a t ih =>
    intro h
    cases t with
    | nil => rfl
    | cons b r =>
      rw [compose_cons_none r (compPair_none (h b (by simp)))]
      rw [ih (fun d hd => h d (List.mem_cons_of_mem _ hd))]

/-- Composition distributes over an append whose right part does not start
with a combining mark. -/
theorem compose_append (Y : List Char)
    (hY : ∀ d, Y.head? = some d → isCombining d = false) :
    ∀ (n : ℕ) (X : List Char), X.length ≤ n →
      compose (X ++ Y) = compose X ++ compose Y := by
  intro n
  induction n with
  | zero =>
    intro X hX
    have : X = [] := List.eq_nil_of_length_eq_zero (Nat.le_zero.mp hX)
    subst this
    rfl
  | succ n ih =>
    intro X hX
    match X with
    | [] => rfl
    | [a] =>
      cases hYc : Y with
      | nil => subst hYc; rfl
      | cons d ys =>
        have hd : isCombining d = false := hY d (by rw [hYc]; rfl)
        show compose (a :: d :: ys) = compose [a] ++ compose (d :: ys)
        rw [compose_cons_none ys (compPair_none hd)]
        rfl
    | a :: b :: r =>
      have hr : (a :: b :: r) ++ Y = a :: b :: (r ++ Y) := rfl
      cases hcp : compPair a b with
      | some c =>
        rw [hr, compose_cons_some (r ++ Y) hcp, compose_cons_some r hcp]
        exact ih (c :: r) (by simp at hX ⊢; omega)
      | none =>
        rw [hr, compose_cons_none (r ++ Y) hcp, compose_cons_none r hcp]
        rw [show b :: (r ++ Y) = (b :: r) ++ Y from rfl]
        rw [ih (b :: r) (by simp at hX ⊢; omega)]
        rfl

/-- Membership in `domainChars` from the code-point test. -/
theorem mem_domainChars {c : Char} (h : inDomainN c.toNat = true) :
    c ∈ domainChars := by
  have hc : Char.ofNat c.toNat = c := Char.ofNat_toNat c
  unfold inDomainN at h
  simp only [Bool.or_eq_true, Bool.and_eq_true, decide_eq_true_eq] at h
  unfold domainChars charRange
  simp only [List.mem_append, List.mem_map, List.mem_range]
  rcases h with ((⟨h1, h2⟩ | ⟨h1, h2⟩) | ⟨h1, h2⟩) | h
  · exact Or.inl (Or.inl (Or.inl ⟨c.toNat - 0xFF01, by omega,
      by rw [show 0xFF01 + (c.toNat - 0xFF01) = c.toNat by omega]; exact hc⟩))
  · exact Or.inl (Or.inl (Or.inr ⟨c.toNat - 0xFF61, by omega,
      by rw [show 0xFF61 + (c.toNat - 0xFF61) = c.toNat by omega]; exact hc⟩))
  · exact Or.inl (Or.inr ⟨c.toNat - 0x30A1, by omega,
      by rw [show 0x30A1 + (c.toNat - 0x30A1) = c.toNat by omega]; exact hc⟩)
  · refine Or.inr ?_
    rw [← hc]
    simp only [List.contains, List.elem_eq_mem, decide_eq_true_eq,
      List.mem_cons, List.not_mem_nil, or_false] at h
    rcases h with h | h | h | h | h | h | h <;> rw [h] <;> decide

/-- Off the tables both per-character maps are the identity. -/
theorem maps_id_of_not_inDomain {c : Char} (h : inDomainN c.toNat = false) :
    nfkcChar c = [c] ∧ z2hChar c = [c] := by
  have hnot : ∀ p : Prop, [Decidable p] → (p → inDomainN c.toNat = true) → ¬p := by
    intro p _ hp hcontra
    rw [hp hcontra] at h
    exact Bool.noConfusion h
  have hfw : ¬(0xFF01 ≤ c.toNat ∧ c.toNat ≤ 0xFF5E) := by
    intro hx
    have : inDomainN c.toNat = true := by
      unfold inDomainN
      simp [hx.1, hx.2]
    rw [this] at h
    exact Bool.noConfusion h
  have hhw : ¬(0xFF61 ≤ c.toNat ∧ c.toNat ≤ 0xFF9F) := by
    intro hx
    have : inDomainN c.toNat = true := by
      unfold inDomainN
      simp [hx.1, hx.2]
    rw [this] at h
    exact Bool.noConfusion h
  have hkata : ¬(0x30A1 ≤ c.toNat ∧ c.toNat ≤ 0x30FC) := by
    intro hx
    have : inDomainN c.toNat = true := by
      unfold inDomainN
      simp [hx.1, hx.2]
    rw [this] at h
    exact Bool.noConfusion h
  have hsing : ∀ m : ℕ, m ∈ ([0x3000, 0x309B, 0x309C, 0x3001, 0x3002, 0x300C,
      0x300D] : List ℕ) → ¬(c.toNat = m) := by
    intro m hm hx
    have : inDomainN c.toNat = true := by
      unfold inDomainN
      simp only [List.contains, List.elem_eq_mem, Bool.or_eq_true,
        decide_eq_true_eq]
      exact Or.inr (hx ▸ hm)
    rw [this] at h
    exact Bool.noConfusion h
  constructor
  · unfold nfkcChar
    rw [if_neg hfw, if_neg hhw, if_neg (hsing 0x3000 (by decide)),
      if_neg (hsing 0x309B (by decide)), if_neg (hsing 0x309C (by decide))]
  · unfold z2hChar
    rw [if_neg hkata, if_neg (hsing 0x3001 (by decide)),
      if_neg (hsing 0x3002 (by decide)), if_neg (hsing 0x300C (by decide)),
      if_neg (hsing 0x300D (by decide)), if_neg (hsing 0x309B (by decide)),
      if_neg (hsing 0x309C (by decide))]

/-- Normalization of the empty list. -/
theorem normalizeL_nil {rich jac : Bool} : normalizeL rich jac [] = [] := by
  cases jac <;> rfl

/-- The per-character facts behind idempotence, for every non-mark
character: its NFKC image is nonempty and combining-free, its normalized
image is a fixed point of the full normalization, and that image does not
start with a mark. -/
theorem chunk_facts {rich jac : Bool} (hchk : checkMode rich jac = true) {c : Char}
    (hm : isMark c = false) :
    (∀ d ∈ nfkcChar c, isCombining d = false) ∧
    normalizeL rich jac (normChar rich jac c) = normChar rich jac c ∧
    (∀ d, (normChar rich jac c).head? = some d → isMark d = false) ∧
    nfkcChar c ≠ [] := by
  cases hdom : inDomainN c.toNat with
  | true =>
    have hall := List.all_eq_true.mp hchk c (mem_domainChars hdom)
    rw [hm] at hall
    simp only [Bool.false_or] at hall
    unfold chunkOK at hall
    simp only [Bool.and_eq_true] at hall
    obtain ⟨⟨⟨hne, hcf⟩, hfix⟩, hhd⟩ := hall
    refine ⟨?_, eq_of_beq hfix, ?_, ?_⟩
    · intro d hd
      have := List.all_eq_true.mp hcf d hd
      simpa using this
    · intro d hd
      cases hA : normChar rich jac c with
      | nil => rw [hA] at hd; exact Option.noConfusion hd
      | cons a A =>
        rw [hA] at hhd
        unfold headNotMark at hhd
        rw [hA] at hd
        injection hd with hd
        rw [← hd]
        simpa using hhd
    · intro hnil
      rw [hnil] at hne
      exact Bool.noConfusion hne
  | false =>
    obtain ⟨hn, hz⟩ := maps_id_of_not_inDomain hdom
    have hcomb : isCombining c = false := by
      unfold isMark at hm
      unfold isCombining
      simp only [Bool.or_eq_false_iff] at hm ⊢
      exact ⟨hm.1.1.1.1.1, hm.1.1.1.1.2⟩
    have hone : (if jac = true then cmap z2hChar (nfkcChar c) else nfkcChar c) = [c] := by
      cases jac
      · simpa using hn
      · rw [if_pos rfl, hn]
        simp [cmap, hz]
    have hchar : normChar rich jac c
        = if stripFor rich c = true then [] else [c] := by
      unfold normChar
      rw [hone]
      cases hst : stripFor rich c <;> simp [List.filter, hst]
    have hnorm1 : normalizeL rich jac [c]
        = if stripFor rich c = true then [] else [c] := by
      unfold normalizeL to_hankaku_kana_ascii_digit nfkcStr
      have h1 : cmap nfkcChar [c] = nfkcChar c := by simp [cmap]
      rw [h1, hn, compose_triv (fun d hd => by
        rw [List.mem_singleton.mp hd]; exact hcomb)]
      have h2 : (if jac = true then cmap z2hChar [c] else [c]) = [c] := by
        cases jac
        · rfl
        · rw [if_pos rfl]
          simp [cmap, hz]
      rw [h2]
      cases hst : stripFor rich c <;> simp [List.filter, hst]
    refine ⟨?_, ?_, ?_, ?_⟩
    · intro d hd
      rw [hn, List.mem_singleton] at hd
      rw [hd]
      exact hcomb
    · rw [hchar]
      cases hst : stripFor rich c
      · have e1 : (if false = true then ([] : List Char) else [c]) = [c] := by simp
        rw [e1, hnorm1, hst]
        simp
      · have e1 : (if true = true then ([] : List Char) else [c]) = [] := by simp
        rw [e1]
        exact normalizeL_nil
    · intro d hd
      rw [hchar] at hd
      cases hst : stripFor rich c
      · rw [hst] at hd
        simp only [Bool.false_eq_true, if_false] at hd
        injection hd with hd
        rw [← hd]
        exact hm
      · rw [hst] at hd
        simp at hd
    · rw [hn]
      exact fun h => List.noConfusion h

/-- On mark-free input, normalization is the concatenation of the
per-character images (the composition pass never fires). -/
theorem normalizeL_eq_cmap {rich jac : Bool} (hchk : checkMode rich jac = true)
    {l : List Char} (hl : ∀ c ∈ l, isMark c = false) :
    normalizeL rich jac l = cmap (normChar rich jac) l := by
  unfold normalizeL to_hankaku_kana_ascii_digit nfkcStr
  have hcf : ∀ d ∈ cmap nfkcChar l, isCombining d = false := by
    intro d hd
    rcases mem_cmap.mp hd with ⟨c, hc, hdc⟩
    exact (chunk_facts hchk (hl c hc)).1 d hdc
  rw [compose_triv hcf]
  by_cases hj : jac = true
  · rw [if_pos hj, cmap_cmap, filter_cmap]
    have he : (fun a => (cmap z2hChar (nfkcChar a)).filter (fun d => !stripFor rich d))
        = normChar rich jac := funext fun a => by unfold normChar; rw [if_pos hj]
    rw [he]
  · rw [if_neg hj, filter_cmap]
    have he : (fun a => (nfkcChar a).filter (fun d => !stripFor rich d))
        = normChar rich jac := funext fun a => by unfold normChar; rw [if_neg hj]
    rw [he]

/-- Normalization distributes over an append whose right part's NFKC image
does not start with a combining mark. -/
theorem normalizeL_append {rich jac : Bool} {X Y : List Char}
    (hY : ∀ d, (cmap nfkcChar Y).head? = some d → isCombining d = false) :
    normalizeL rich jac (X ++ Y) = normalizeL rich jac X ++ normalizeL rich jac Y := by
  unfold normalizeL to_hankaku_kana_ascii_digit nfkcStr
  rw [cmap_append nfkcChar,
    compose_append (cmap nfkcChar Y) hY (cmap nfkcChar X).length _ le_rfl]
  by_cases hj : jac = true
  · rw [if_pos hj, if_pos hj, if_pos hj, cmap_append z2hChar, List.filter_append]
  · rw [if_neg hj, if_neg hj, if_neg hj, List.filter_append]

/-- The concatenated chunk list of a mark-free input never starts with a
mark. -/
theorem cmap_normChar_head {rich jac : Bool} (hchk : checkMode rich jac = true) :
    ∀ {l : List Char}, (∀ c ∈ l, isMark c = false) →
    ∀ d, (cmap (normChar rich jac) l).head? = some d → isMark d = false := by
  intro l
  induction l with
  | nil => intro _ d hd; simp [cmap] at hd
  | cons c t ih =>
    intro hl d hd
    have hc : isMark c = false := hl c (List.mem_cons_self c t)
    have ht : ∀ x ∈ t, isMark x = false :=
      fun x hx => hl x (List.mem_cons_of_mem c hx)
    rw [show cmap (normChar rich jac) (c :: t)
        = normChar rich jac c ++ cmap (normChar rich jac) t from rfl] at hd
    cases hA : normChar rich jac c with
    | nil =>
      rw [hA] at hd
      exact ih ht d hd
    | cons a A =>
      rw [hA] at hd
      exact (chunk_facts hchk hc).2.2.1 d (by rw [hA]; exact hd)

/-- The NFKC image of a list whose head is not a mark does not start with
a combining mark. -/
theorem cmapN_head {rich jac : Bool} (hchk : checkMode rich jac = true)
    {M : List Char} (hM : ∀ d, M.head? = some d → isMark d = false) :
    ∀ d, (cmap nfkcChar M).head? = some d → isCombining d = false := by
  cases M with
  | nil => intro d hd; simp [cmap] at hd
  | cons m M2 =>
    intro d hd
    have hm : isMark m = false := hM m rfl
    have h1 := (@chunk_facts rich jac hchk m hm).1
    have h4 := (@chunk_facts rich jac hchk m hm).2.2.2
    rw [show cmap nfkcChar (m :: M2) = nfkcChar m ++ cmap nfkcChar M2 from rfl] at hd
    cases hn : nfkcChar m with
    | nil => exact absurd hn h4
    | cons e E =>
      rw [hn] at hd
      injection hd with hd
      rw [← hd]
      exact h1 e (by rw [hn]; exact List.mem_cons_self e E)

/-- Chunk lists are fixed points of normalization. -/
theorem normalizeL_fix {rich jac : Bool} (hchk : checkMode rich jac = true) :
    ∀ {l : List Char}, (∀ c ∈ l, isMark c = false) →
    normalizeL rich jac (cmap (normChar rich jac) l) = cmap (normChar rich jac) l := by
  intro l
  induction l with
  | nil => intro _; exact normalizeL_nil
  | cons c t ih =>
    intro hl
    have hc : isMark c = false := hl c (List.mem_cons_self c t)
    have ht : ∀ x ∈ t, isMark x = false :=
      fun x hx => hl x (List.mem_cons_of_mem c hx)
    show normalizeL rich jac (normChar rich jac c ++ cmap (normChar rich jac) t) = _
    rw [normalizeL_append (cmapN_head hchk (cmap_normChar_head hchk ht))]
    rw [(chunk_facts hchk hc).2.1, ih ht]
    rfl

/-- C4 counterexample: on input KA, space, combining voiced mark
(U+30AB, U+0020, U+3099) the first pass strips the space, leaving the mark
adjacent to the kana; the second pass's NFKC composes them into ガ, so the
two passes disagree (here in the regex+jaconv configuration: pass one
gives half-width ｶ + U+3099, pass two gives ｶﾞ). -/
theorem C4_idem_cex :
    normalize_title_for_dup true true
        (normalize_title_for_dup true true (String.mk ['カ', ' ', Char.ofNat 0x3099]))
      ≠ normalize_title_for_dup true true (String.mk ['カ', ' ', Char.ofNat 0x3099]) := by
  decide

set_option maxRecDepth 40000 in
set_option maxHeartbeats 3200000 in
/-- C4 amended: normalization is idempotent, in every library
configuration, for every input containing no stand-alone (semi)voiced
sound mark character (U+3099/U+309A/U+309B/U+309C/U+FF9E/U+FF9F); a stray
mark can be re-composed onto a preceding kana by the second pass once the
separator between them is stripped, as the counterexample shows. -/
theorem C4_idem_amended (rich jac : Bool) (s : String)
    (h : ∀ c ∈ s.data, isMark c = false) :
    normalize_title_for_dup rich jac (normalize_title_for_dup rich jac s)
      = normalize_title_for_dup rich jac s := by
  have hchk : checkMode rich jac = true := by
    cases rich <;> cases jac <;> decide
  show String.mk (normalizeL rich jac (normalizeL rich jac s.data))
      = String.mk (normalizeL rich jac s.data)
  rw [normalizeL_eq_cmap hchk h]
  rw [normalizeL_fix hchk h]

/-- Witness for C4 amended on a mark-free concrete title. -/
theorem C4_idem_witness :
    (∀ c ∈ "日産ニュース！".data, isMark c = false) ∧
    normalize_title_for_dup true true (normalize_title_for_dup true true "日産ニュース！")
      = normalize_title_for_dup true true "日産ニュース！" :=
  ⟨by decide, C4_idem_amended true true "日産ニュース！" (by decide)⟩

/-! ## C5: the strip classes of the rich normalizer -/

/-- C5 counterexample: with the kana-folding helper active (the full
configuration the script installs), the example title normalizes to
half-width "日産新型ﾘｰﾌ発売", not to the claimed "日産新型リーフ発売". -/
theorem C5_strip_cex :
    normalize_title_for_dup true true "日産「新型リーフ」発売！" ≠ "日産新型リーフ発売" ∧
    normalize_title_for_dup true true "日産「新型リーフ」発売！" = "日産新型ﾘｰﾌ発売" := by
  constructor
  · decide
  · decide

/-- C5 amended: with the rich classifier the output never contains a
character of the stripped categories (P/S/Z/Cc, as modelled by
`stripRich`); the example yields "日産新型ﾘｰﾌ発売" when jaconv folds
katakana to half-width and "日産新型リーフ発売" when jaconv is absent; the
empty title yields the empty string, not an error. -/
theorem C5_strip_amended :
    (∀ (jac : Bool) (s : String) (c : Char),
      c ∈ (normalize_title_for_dup true jac s).data → stripRich c = false) ∧
    normalize_title_for_dup true true "日産「新型リーフ」発売！" = "日産新型ﾘｰﾌ発売" ∧
    normalize_title_for_dup true false "日産「新型リーフ」発売！" = "日産新型リーフ発売" ∧
    (∀ rich jac, normalize_title_for_dup rich jac "" = "") := by
  refine ⟨?_, by decide, by decide, ?_⟩
  · intro jac s c hc
    have hmem : c ∈ normalizeL true jac s.data := hc
    unfold normalizeL at hmem
    have := List.of_mem_filter hmem
    simpa [stripFor] using this
  · intro rich jac
    show String.mk (normalizeL rich jac ("" : String).data) = ""
    rw [show ("" : String).data = [] from rfl, normalizeL_nil]

/-- Witness for C5 on a concrete character of a concrete normalized
title. -/
theorem C5_strip_witness :
    '日' ∈ (normalize_title_for_dup true true "日産！").data ∧ stripRich '日' = false :=
  ⟨by decide, C5_strip_amended.1 true "日産！" '日' (by decide)⟩

/-! ## C6: fully-labeled rows and the classification merge -/

/-- Every pair emitted by the eligibility scan points at a row (at
enumerate index `j`, sheet row `i + j + 1`) whose F or G cell is empty. -/
theorem eligibleAux_spec : ∀ (t : List (List String)) (i : ℕ) (p : ℕ × String),
    p ∈ eligibleAux i t →
    ∃ j, j < t.length ∧ p.1 = i + j + 1 ∧
      ((t.getD j []).getD 5 "" = "" ∨ (t.getD j []).getD 6 "" = "") := by
  intro t
  induction t with
  | nil => intro i p hp; simp [eligibleAux] at hp
  | cons row rest ih =>
    intro i p hp
    unfold eligibleAux at hp
    rcases List.mem_append.mp hp with h | h
    · by_cases hi : i = 0
      · rw [if_pos hi] at h
        simp at h
      · rw [if_neg hi] at h
        by_cases hcond : (row.getD 1 "") ≠ "" ∧
            ((row.getD 5 "") = "" ∨ (row.getD 6 "") = "")
        · rw [if_pos hcond] at h
          rw [List.mem_singleton] at h
          refine ⟨0, by simp, ?_, ?_⟩
          · rw [h]
          · simpa using hcond.2
        · rw [if_neg hcond] at h
          simp at h
    · rcases ih (i + 1) p h with ⟨j, hj, hpj, hcond⟩
      refine ⟨j + 1, by simpa using Nat.succ_lt_succ hj, by omega, by simpa using hcond⟩

/-- Every batch element comes from the eligible-item list. -/
theorem chunks40Go_subset : ∀ (f : ℕ) (l b : List α), b ∈ chunks40Go f l →
    ∀ x ∈ b, x ∈ l := by
  intro f
  induction f with
  | zero =>
    intro l b hb
    cases l with
    | nil => simp [chunks40Go] at hb
    | cons a t =>
      rw [show chunks40Go 0 (a :: t) = [a :: t] from rfl, List.mem_singleton] at hb
      rw [hb]
      exact fun x hx => hx
  | succ f ih =>
    intro l b hb
    cases l with
    | nil => simp [chunks40Go] at hb
    | cons a t =>
      rcases List.mem_cons.mp hb with h | h
      · rw [h]
        exact fun x hx => List.take_subset _ _ hx
      · exact fun x hx => List.drop_subset _ _ (ih _ b h x hx)

/-- C6 counterexample: with an off-contract oracle response that names
sheet row 3 — a row whose sentiment and category are both populated — the
merge stages a write for that row's F/G cells (only row 2 was submitted). -/
theorem C6_overwrite_cex :
    ((cexVals.getD 2 []).getD 5 "") ≠ "" ∧ ((cexVals.getD 2 []).getD 6 "") ≠ "" ∧
    classify_updates cexVals cexOracle = [(3, "ポジティブ", "株式")] :=
  ⟨by decide, by decide, by decide⟩

/-- C6 amended: a fully-labeled row is never part of any submitted batch;
and provided the oracle echoes only submitted row ids (its response
contract), every staged update targets an eligible row, i.e. one whose F
or G cell was empty — so a fully-labeled row is never written.  Without
that proviso the counterexample shows an oracle response that makes the
code overwrite a fully-labeled row. -/
theorem C6_no_overwrite_amended (values : List (List String))
    (oracle : List (ℕ × String) → Option (List RespObj))
    (hcontract : ∀ batch objs, oracle batch = some objs →
      ∀ o ∈ objs, ∀ ridx, o.row = some ridx → ∃ p ∈ batch, ((p.1 : ℤ) = ridx)) :
    (∀ (i : ℕ) (t : String),
      ((values.getD i []).getD 5 "") ≠ "" → ((values.getD i []).getD 6 "") ≠ "" →
      (i + 1, t) ∉ eligible_items values) ∧
    (∀ u ∈ classify_updates values oracle,
      ∃ p ∈ eligible_items values, u.1 = (p.1 : ℤ)) ∧
    (∀ u ∈ classify_updates values oracle, ∀ i : ℕ, u.1 = ((i + 1 : ℕ) : ℤ) →
      ((values.getD i []).getD 5 "") = "" ∨ ((values.getD i []).getD 6 "") = "") := by
  have hpart2 : ∀ u ∈ classify_updates values oracle,
      ∃ p ∈ eligible_items values, u.1 = (p.1 : ℤ) := by
    intro u hu
    simp only [classify_updates] at hu
    split at hu
    · simp at hu
    · rcases mem_cmap.mp hu with ⟨batch, hbatch, hub⟩
      cases horc : oracle batch with
      | none => rw [horc] at hub; simp at hub
      | some objs =>
        rw [horc] at hub
        rcases List.mem_filterMap.mp hub with ⟨o, ho, hou⟩
        cases hrow : o.row with
        | none => rw [hrow] at hou; exact Option.noConfusion hou
        | some ridx =>
          rw [hrow] at hou
          injection hou with hou
          rcases hcontract batch objs horc o ho ridx hrow with ⟨p, hp, hpr⟩
          refine ⟨p, chunks40Go_subset _ _ batch hbatch p hp, ?_⟩
          rw [← hou]
          exact hpr.symm
  refine ⟨?_, hpart2, ?_⟩
  · intro i t h5 h6 hmem
    rcases eligibleAux_spec values 0 (i + 1, t) hmem with ⟨j, _, hpj, hcond⟩
    have hij : i = j := by simpa using hpj
    rw [hij] at h5 h6
    rcases hcond with h | h
    · exact h5 h
    · exact h6 h
  · intro u hu i hui
    rcases hpart2 u hu with ⟨p, hp, hup⟩
    rcases eligibleAux_spec values 0 p hp with ⟨j, _, hpj, hcond⟩
    have hij : i = j := by
      rw [hui] at hup
      have h1 : (i + 1 : ℕ) = p.1 := by exact_mod_cast hup
      omega
    rw [hij]
    exact hcond

/-- Witness for C6 with a contract-compliant (echoing) oracle: the fully
labeled row 3 of the fixture is not eligible. -/
theorem C6_no_overwrite_witness :
    ((cexVals.getD 2 []).getD 5 "") ≠ "" ∧ ((cexVals.getD 2 []).getD 6 "") ≠ "" ∧
    (2 + 1, "T3") ∉ eligible_items cexVals := by
  refine ⟨by decide, by decide, ?_⟩
  refine (C6_no_overwrite_amended cexVals echoOracle ?_).1 2 "T3" (by decide) (by decide)
  intro batch objs hobjs o ho ridx hrow
  injection hobjs with hobjs
  rw [← hobjs] at ho
  rcases List.mem_map.mp ho with ⟨p, hp, hpo⟩
  refine ⟨p, hp, ?_⟩
  rw [← hpo] at hrow
  injection hrow

/-! ## C1: dedup-append keeps exactly the URL-new candidates, in order -/

/-- C1: `append_rows_dedup` keeps exactly the candidates whose URL is
absent from the existing set, preserves relative input order (the result
is a sublist of the input), retains both of two candidates with equal
normalized titles but new URLs, and yields the empty list (not an error)
when every candidate URL already exists. -/
theorem C1_dedup_by_url (rows : List OutRow) (existing : List String) :
    (∀ r, r ∈ append_rows_dedup rows existing ↔ r ∈ rows ∧ r.url ∉ existing) ∧
    (append_rows_dedup rows existing).Sublist rows ∧
    (∀ r1 r2, r1 ∈ rows → r2 ∈ rows → r1.dupKey = r2.dupKey → r1.url ≠ r2.url →
      r1.url ∉ existing → r2.url ∉ existing →
      r1 ∈ append_rows_dedup rows existing ∧ r2 ∈ append_rows_dedup rows existing) ∧
    ((∀ r ∈ rows, r.url ∈ existing) → append_rows_dedup rows existing = []) := by
  have hmem : ∀ r, r ∈ append_rows_dedup rows existing ↔ r ∈ rows ∧ r.url ∉ existing := by
    intro r
    simp [append_rows_dedup, List.mem_filter]
  refine ⟨hmem, List.filter_sublist _, ?_, ?_⟩
  · intro r1 r2 h1 h2 _ _ hu1 hu2
    exact ⟨(hmem r1).mpr ⟨h1, hu1⟩, (hmem r2).mpr ⟨h2, hu2⟩⟩
  · intro hall
    apply List.filter_eq_nil_iff.mpr
    intro r hr
    simp [hall r hr]

/-- Witness for C1 at concrete data: two candidates with the same
normalized title and distinct new URLs are both kept. -/
theorem C1_dedup_by_url_witness :
    mkRow "a" ∈ append_rows_dedup [mkRow "a", mkRow "b"] ["x"] ∧
    mkRow "b" ∈ append_rows_dedup [mkRow "a", mkRow "b"] ["x"] :=
  (C1_dedup_by_url [mkRow "a", mkRow "b"] ["x"]).2.2.1 (mkRow "a") (mkRow "b")
    (by decide) (by decide) (by decide) (by decide) (by decide) (by decide)

/-! ## C7: URL uniqueness after append -/

/-- C7 counterexample: the claim fails when the candidate list itself
repeats a URL — both copies are appended, so the URL column is no longer
pairwise distinct even though it was before the run. -/
theorem C7_cex :
    ([] : List String).Nodup ∧ ¬ (urls_after [] [mkRow "u", mkRow "u"]).Nodup := by
  constructor
  · exact List.nodup_nil
  · decide

/-- C7 amended: URL uniqueness after the append step holds provided the
candidates' own URLs are pairwise distinct (the code only filters against
the pre-existing URL set, not within the batch). -/
theorem C7_unique_amended (existing : List String) (rows : List OutRow)
    (hex : existing.Nodup) (hrows : (rows.map (fun r => r.url)).Nodup) :
    (urls_after existing rows).Nodup := by
  unfold urls_after
  rw [List.nodup_append]
  refine ⟨hex, ?_, ?_⟩
  · have hsub : ((append_rows_dedup rows existing).map (fun r => r.url)).Sublist
        (rows.map (fun r => r.url)) := (List.filter_sublist _).map _
    exact hrows.sublist hsub
  · intro a ha hb
    rcases List.mem_map.mp hb with ⟨r, hr, rfl⟩
    rcases List.mem_filter.mp hr with ⟨_, hdec⟩
    exact (of_decide_eq_true hdec) ha

/-- Witness for C7 amended at concrete data. -/
theorem C7_unique_witness :
    (["a"].Nodup ∧ ([mkRow "b", mkRow "c"].map (fun r => r.url)).Nodup) ∧
    (urls_after ["a"] [mkRow "b", mkRow "c"]).Nodup :=
  ⟨⟨by decide, by decide⟩,
   C7_unique_amended ["a"] [mkRow "b", mkRow "c"] (by decide) (by decide)⟩

/-! ## C9: staged sentiment is always one of the three labels -/

/-- C9: every staged update carries one of exactly the three canonical
sentiment labels; a non-exact value is corrected by substring containment
(ポジ/ネガ) and falls back to the neutral label when neither matches. -/
theorem C9_sentiment_labels :
    (∀ values oracle, ∀ u ∈ classify_updates values oracle,
      u.2.1 = "ポジティブ" ∨ u.2.1 = "ネガティブ" ∨ u.2.1 = "ニュートラル") ∧
    (∀ s, fix_sentiment s = "ポジティブ" ∨ fix_sentiment s = "ネガティブ" ∨
      fix_sentiment s = "ニュートラル") ∧
    (∀ s, ¬(s = "ポジティブ" ∨ s = "ネガティブ" ∨ s = "ニュートラル") →
      strContains s "ポジ" = false → strContains s "ネガ" = false →
      fix_sentiment s = "ニュートラル") := by
  have hfix : ∀ s, fix_sentiment s = "ポジティブ" ∨ fix_sentiment s = "ネガティブ" ∨
      fix_sentiment s = "ニュートラル" := by
    intro s
    unfold fix_sentiment
    split
    · next h => rcases h with h | h | h <;> simp [h]
    · split
      · exact Or.inl rfl
      · split
        · exact Or.inr (Or.inl rfl)
        · exact Or.inr (Or.inr rfl)
  refine ⟨?_, hfix, ?_⟩
  · intro values oracle u hu
    simp only [classify_updates] at hu
    split at hu
    · simp at hu
    · rcases mem_cmap.mp hu with ⟨batch, _, hub⟩
      split at hub
      · simp at hub
      · rcases List.mem_filterMap.mp hub with ⟨o, _, ho⟩
        cases hrow : o.row with
        | none => rw [hrow] at ho; simp at ho
        | some ridx =>
          rw [hrow] at ho
          simp only [Option.some.injEq] at ho
          rw [← ho]
          exact hfix _
  · intro s hs h1 h2
    unfold fix_sentiment
    rw [if_neg hs, h1, h2]
    simp

/-- Witness for C9 at a concrete off-vocabulary sentiment value. -/
theorem C9_sentiment_witness :
    ¬("やや悪い" = "ポジティブ" ∨ "やや悪い" = "ネガティブ" ∨ "やや悪い" = "ニュートラル") ∧
    fix_sentiment "やや悪い" = "ニュートラル" :=
  ⟨by decide, C9_sentiment_labels.2.2 "やや悪い" (by decide) (by decide) (by decide)⟩

end NewsAI
